import Mathlib

/-!
Verification of the query-guardrail layer of postgres-mcp-go.

The definitions below are a shallow embedding of
internal/postgresmcp/query_tool.go (statement classifier, guardrail
policy, limit computation, row consumption, value/argument
normalizers) and of the NewServer default-limit logic.  Go strings are
modelled as List Char, Go int/int64 as Int, Go float64 as Rat.  The
Unicode letter class of unicode.IsLetter is modelled on the ASCII
range (SQL keywords are ASCII); unicode.IsSpace is modelled with the
full White_Space table that Go uses.
-/

/-- Go string literal helper: the character list of a Lean string. -/
def str (s : String) : List Char := s.data

/-- Go unicode.IsSpace: the set of White_Space code points. -/
def goWhitespace : List Char :=
  ['\t', '\n', Char.ofNat 0x0B, Char.ofNat 0x0C, '\r', ' ',
   Char.ofNat 0x85, Char.ofNat 0xA0, Char.ofNat 0x1680,
   Char.ofNat 0x2000, Char.ofNat 0x2001, Char.ofNat 0x2002, Char.ofNat 0x2003,
   Char.ofNat 0x2004, Char.ofNat 0x2005, Char.ofNat 0x2006, Char.ofNat 0x2007,
   Char.ofNat 0x2008, Char.ofNat 0x2009, Char.ofNat 0x200A,
   Char.ofNat 0x2028, Char.ofNat 0x2029, Char.ofNat 0x202F,
   Char.ofNat 0x205F, Char.ofNat 0x3000]

/-- Go unicode.IsSpace as a Boolean predicate. -/
def goIsSpace (c : Char) : Bool := decide (c ∈ goWhitespace)

/-- Go strings.TrimSpace: drop Unicode space from both ends. -/
def goTrimSpace (l : List Char) : List Char :=
  ((l.dropWhile goIsSpace).reverse.dropWhile goIsSpace).reverse

/-- Character class accepted into the keyword token by firstKeyword:
unicode.IsLetter (modelled on ASCII) or underscore. -/
def isWordChar (c : Char) : Bool := c.isAlpha || c = '_'

/-- Go unicode.ToUpper, modelled on the ASCII range. -/
def goToUpper (c : Char) : Char := c.toUpper

/-- The builder loop at the end of firstKeyword (query_tool.go:255-272):
append uppercased letters/underscores, skip spaces while the builder is
still empty, stop at the first other character. -/
def buildKeyword : List Char → List Char → List Char
  | acc, [] => acc.reverse
  | acc, c :: rest =>
    if isWordChar c then buildKeyword (goToUpper c :: acc) rest
    else if acc.isEmpty && goIsSpace c then buildKeyword acc rest
    else acc.reverse

/-- Go strings.Index: index of the first occurrence of pat in s. -/
def indexOfSub (pat : List Char) : List Char → Option Nat
  | [] => if pat.isEmpty then some 0 else none
  | c :: rest =>
    if pat.isPrefixOf (c :: rest) then some 0
    else (indexOfSub pat rest).map (· + 1)

/-- The comment-skipping loop of firstKeyword (query_tool.go:240-259),
fused with the final token build.  The fuel argument bounds the number
of iterations; every iteration strictly shrinks the string, so fuel
equal to length + 1 is always sufficient (skipLoop_congr below). -/
def skipLoop : Nat → List Char → List Char
  | 0, _ => []
  | fuel + 1, s =>
    if (str "--").isPrefixOf s then
      match s.findIdx? (fun c => c = '\n') with
      | none => []
      | some i => skipLoop fuel (goTrimSpace (s.drop (i + 1)))
    else if (str "/*").isPrefixOf s then
      match indexOfSub (str "*/") s with
      | none => []
      | some i => skipLoop fuel (goTrimSpace (s.drop (i + 2)))
    else if s.isEmpty then []
    else buildKeyword [] s

/-- firstKeyword (query_tool.go:238-274). -/
def firstKeyword (sql : List Char) : List Char :=
  skipLoop ((goTrimSpace sql).length + 1) (goTrimSpace sql)

/-- The allow-set of leading keywords in read-only mode
(query_tool.go:282-289, map allowedReadOnly). -/
def allowedReadOnly : List (List Char) :=
  [str "SELECT", str "WITH", str "SHOW", str "EXPLAIN", str "VALUES", str "TABLE"]

/-- isReadOnlyStatement (query_tool.go:291-297). -/
def isReadOnlyStatement (sql : List Char) : Bool :=
  let kw := firstKeyword sql
  if kw.isEmpty then false
  else decide (kw ∈ allowedReadOnly)

/-- Go strings.LastIndex for a single character, as an Option. -/
def lastIdxOf (c : Char) : List Char → Option Nat
  | [] => none
  | x :: rest =>
    match lastIdxOf c rest with
    | some j => some (j + 1)
    | none => if x = c then some 0 else none

/-- isSingleStatement (query_tool.go:219-236). -/
def isSingleStatement (sql : List Char) : Bool :=
  let t := goTrimSpace sql
  if t.isEmpty then false
  else if t.count ';' = 0 then true
  else if 1 < t.count ';' then false
  else
    match lastIdxOf ';' t with
    | none => false
    | some idx =>
      if idx = t.length - 1 then decide (goTrimSpace (t.take idx) ≠ []) else false

/-- Model of a Go time.Time instant: seconds and nanoseconds since the
Unix epoch.  Formatting always renders the absolute instant in UTC,
which is what val.UTC().Format does in normalizeValue. -/
structure GoTime where
  sec : Int
  nsec : Nat
deriving DecidableEq, Repr

/-- Decimal digits of n, left-padded with zeros to width w. -/
def padZeros (w : Nat) (n : Nat) : List Char :=
  let d := Nat.toDigits 10 n
  List.replicate (w - d.length) '0' ++ d

/-- Civil date (year, month, day) of a day count relative to
1970-01-01, proleptic Gregorian (the calendar Go's time package uses). -/
def civilFromDays (z0 : Int) : Int × Nat × Nat :=
  let z := z0 + 719468
  let era := z.fdiv 146097
  let doe := (z - era * 146097).toNat
  let yoe := (doe - doe / 1460 + doe / 36524 - doe / 146096) / 365
  let y := (yoe : Int) + era * 400
  let doy := doe - (365 * yoe + yoe / 4 - yoe / 100)
  let mp := (5 * doy + 2) / 153
  let d := doy - (153 * mp + 2) / 5 + 1
  let m := if mp < 10 then mp + 3 else mp - 9
  (if m ≤ 2 then y + 1 else y, m, d)

/-- Fractional-second suffix of time.RFC3339Nano: empty when zero,
otherwise a dot followed by the 9 nanosecond digits with trailing
zeros removed. -/
def rfcFraction (nsec : Nat) : List Char :=
  if nsec = 0 then []
  else '.' :: ((padZeros 9 nsec).reverse.dropWhile (fun c => c = '0')).reverse

/-- Model of t.UTC().Format(time.RFC3339Nano) for CE instants. -/
def formatRFC3339Nano (t : GoTime) : List Char :=
  let days := t.sec.fdiv 86400
  let sod := (t.sec - days * 86400).toNat
  let c := civilFromDays days
  padZeros 4 c.1.toNat ++ str "-" ++ padZeros 2 c.2.1 ++ str "-" ++ padZeros 2 c.2.2
    ++ str "T" ++ padZeros 2 (sod / 3600) ++ str ":" ++ padZeros 2 (sod % 3600 / 60)
    ++ str ":" ++ padZeros 2 (sod % 60) ++ rfcFraction t.nsec ++ str "Z"

/-- Model of the Go any values flowing through the query tool: the
shapes the two normalizers dispatch on, plus a catch-all.  float is
float64 modelled as a rational, int is int64, numeric is
pgtype.Numeric (validity flag and decimal rendering), numericPtr is
a possibly-nil pointer to one, stringer is any other value whose
fmt.Stringer rendering is the given text. -/
inductive GoValue where
  | null
  | bool (b : Bool)
  | int (n : Int)
  | float (q : ℚ)
  | str (s : List Char)
  | bytes (b : List Char)
  | time (t : GoTime)
  | numeric (valid : Bool) (render : List Char)
  | numericPtr (p : Option (Bool × List Char))
  | stringer (render : List Char)
  | map (entries : List (List Char × GoValue))
  | arr (elems : List GoValue)
  | other

instance : Inhabited GoValue := ⟨GoValue.null⟩

/-- Go math.Trunc followed by conversion to int64: the integer part of
q rounded toward zero (division on nonnegative operands, negated for
negative numerators). -/
def goTrunc (q : ℚ) : Int :=
  if 0 ≤ q.num then q.num / (q.den : Int) else -((-q.num) / (q.den : Int))

mutual

/-- normalizeArgument (query_tool.go:154-176): narrow float64 values
with no fractional part (math.Trunc(v) == v) to int64, recurse into
maps and slices, pass everything else through. -/
def normalizeArgument : GoValue → GoValue
  | .float q => if ((goTrunc q : ℚ)) = q then .int (goTrunc q) else .float q
  | .map entries => .map (normArgEntries entries)
  | .arr elems => .arr (normArgElems elems)
  | v => v

def normArgEntries : List (List Char × GoValue) → List (List Char × GoValue)
  | [] => []
  | (k, v) :: rest => (k, normalizeArgument v) :: normArgEntries rest

def normArgElems : List GoValue → List GoValue
  | [] => []
  | v :: rest => normalizeArgument v :: normArgElems rest

end

/-- normalizeValue (query_tool.go:178-199): bytes decode to text, times
render in UTC RFC3339Nano, pgtype.Numeric renders its decimal text or
null when invalid (or a nil pointer), fmt.Stringer values render via
String(), everything else passes through. -/
def normalizeValue : GoValue → GoValue
  | .bytes b => .str b
  | .time t => .str (formatRFC3339Nano t)
  | .numeric valid render => if valid then .str render else .null
  | .numericPtr p =>
    match p with
    | none => .null
    | some (valid, render) => if valid then .str render else .null
  | .stringer render => .str render
  | v => v

/-- A returned record: the string-keyed map built per row, modelled as
an insertion-ordered association list with Go map update semantics. -/
abbrev GoRecord := List (List Char × GoValue)

/-- Go map assignment record[k] = v: overwrite the entry for k in
place if present, otherwise append a new entry. -/
def mapUpsert (m : GoRecord) (k : List Char) (v : GoValue) : GoRecord :=
  if m.any (fun p => p.1 = k) then
    m.map (fun p => if p.1 = k then (k, v) else p)
  else m ++ [(k, v)]

/-- Cell i of a row (query_tool.go:108-112): the normalized value when
the index is in range, otherwise the zero value of any, i.e. null. -/
def cellValue (vals : List GoValue) (i : Nat) : GoValue :=
  match vals.get? i with
  | some v => normalizeValue v
  | none => .null

/-- record construction for one row (query_tool.go:107-114): iterate
the column names in order, writing each normalized cell into the map. -/
def buildRecord (cols : List (List Char)) (vals : List GoValue) : GoRecord :=
  cols.enum.foldl (fun rec p => mapUpsert rec p.2 (cellValue vals p.1)) []

/-- Go map read record[k]: the value stored under key k, if any. -/
def recordLookup (m : GoRecord) (k : List Char) : Option GoValue :=
  (m.find? (fun p => decide (p.1 = k))).map (fun p => p.2)

/-- The value of the last write to key k in a left-to-right sequence
of map writes, used to state what buildRecord keeps for a duplicated
column name. -/
def lastWrite (ps : List (List Char × GoValue)) (k : List Char) : Option GoValue :=
  ps.foldl (fun acc p => if p.1 = k then some p.2 else acc) none

/-- The row-consumption loop (query_tool.go:98-117): while rows remain,
stop with truncated = true once count reaches a positive limit,
otherwise emit the row's record and increment count.  Returns the
emitted records, the final count, and the truncated flag. -/
def rowLoop (limit : Int) (cols : List (List Char)) :
    List (List GoValue) → Int → List GoRecord × Int × Bool
  | [], count => ([], count, false)
  | r :: rest, count =>
    if 0 < limit ∧ limit ≤ count then ([], count, true)
    else
      match rowLoop limit cols rest (count + 1) with
      | (recs, c, t) => (buildRecord cols r :: recs, c, t)

/-- The effective row limit of one call (query_tool.go:61-67): start
from the handler's configured default d, and use a positive request
override r when the default is zero or the override is smaller. -/
def effectiveLimit (d r : Int) : Int :=
  if 0 < r ∧ (d = 0 ∨ r < d) then r else d

/-- The maxRows field NewServer installs into the handler
(query_tool.go:319-321 with defaultMaxRows = 200): a configured value
of at most zero falls back to the internal default. -/
def defaultMaxRows : Int := 200

/-- NewServer's handler limit: opts.MaxRows, or defaultMaxRows when
configured as at most zero. -/
def newServerMaxRows (optsMaxRows : Int) : Int :=
  if optsMaxRows ≤ 0 then defaultMaxRows else optsMaxRows

/-- The handler configuration relevant to call (pool and timeout are
external collaborators and are not modelled). -/
structure QueryHandler where
  readOnly : Bool
  maxRows : Int
deriving DecidableEq, Repr

/-- The tool input (query_tool.go:25-30). -/
structure QueryInput where
  sql : List Char
  args : List GoValue
  maxRows : Int

/-- The underlying result set produced by pool.Query for the statement:
field names, raw row values, the command tag's affected-row count and
its text. -/
structure ResultSet where
  columns : List (List Char)
  rows : List (List GoValue)
  rowsAffected : Int
  command : List Char

/-- The tool output (query_tool.go:32-40); elapsed is wall-clock time
and is not modelled. -/
structure QueryOutput where
  command : List Char
  rowCount : Int
  columns : List (List Char)
  rows : List GoRecord
  truncated : Bool

/-- The validation failures call can return before execution
(query_tool.go:52-63). -/
inductive CallError where
  | emptySQL
  | multiStatement
  | mutatingRejected
  | invalidLimit
deriving DecidableEq, Repr

/-- call (query_tool.go:50-135) on the success path of pool.Query,
with the query's underlying result set passed in explicitly: validate,
compute the effective limit, consume rows under the cap, and assemble
the output (argument normalization feeds pool.Query and does not
affect the envelope). -/
def call (h : QueryHandler) (input : QueryInput) (rs : ResultSet) :
    Except CallError QueryOutput :=
  let sqlText := goTrimSpace input.sql
  if sqlText.isEmpty then .error .emptySQL
  else if !isSingleStatement sqlText then .error .multiStatement
  else if h.readOnly && !isReadOnlyStatement sqlText then .error .mutatingRejected
  else if input.maxRows < 0 then .error .invalidLimit
  else
    let limit := effectiveLimit h.maxRows input.maxRows
    let out := rowLoop limit rs.columns rs.rows 0
    let rowCount := if out.2.1 = 0 ∧ rs.columns = [] then rs.rowsAffected else out.2.1
    .ok { command := rs.command, rowCount := rowCount, columns := rs.columns,
          rows := out.1, truncated := out.2.2 }

lemma goTrunc_den_one {q : ℚ} (h : q.den = 1) : goTrunc q = q.num := by
  unfold goTrunc
  rw [h]
  split <;> simp

lemma goTrunc_cast_eq_iff (q : ℚ) : ((goTrunc q : ℚ)) = q ↔ q.den = 1 := by
  constructor
  · intro h
    have := Rat.den_intCast (goTrunc q)
    rw [h] at this
    exact this
  · intro h
    rw [goTrunc_den_one h]
    exact Rat.coe_int_num_of_den_eq_one h

lemma normalizeArgument_float (q : ℚ) :
    normalizeArgument (.float q) = if q.den = 1 then .int q.num else .float q := by
  rw [normalizeArgument]
  by_cases h : q.den = 1
  · rw [if_pos ((goTrunc_cast_eq_iff q).mpr h), if_pos h, goTrunc_den_one h]
  · rw [if_neg (fun hc => h ((goTrunc_cast_eq_iff q).mp hc)), if_neg h]

lemma normArgEntries_eq (entries : List (List Char × GoValue)) :
    normArgEntries entries = entries.map (fun p => (p.1, normalizeArgument p.2)) := by
  induction entries with
  | nil => rfl
  | cons p rest ih => cases p; rw [normArgEntries, ih]; rfl

lemma normArgElems_eq (elems : List GoValue) :
    normArgElems elems = elems.map normalizeArgument := by
  induction elems with
  | nil => rfl
  | cons v rest ih => rw [normArgElems, ih]; rfl

/-- C3: the effective row limit starts from the configured default
(which NewServer replaces with 200 when configured as at most 0); a
positive request override smaller than the default, or any positive
override when the default is zero, becomes the effective limit; a
negative override makes the call fail with InvalidLimit independently
of any execution; concretely 200/50 gives 50, 0/10 gives 10, 200/500
gives 200. -/
theorem effectiveLimit_spec :
    (∀ m : Int, m ≤ 0 → newServerMaxRows m = 200) ∧
    (∀ m : Int, 0 < m → newServerMaxRows m = m) ∧
    (∀ d r : Int, 0 < r → (d = 0 ∨ r < d) → effectiveLimit d r = r) ∧
    (∀ d r : Int, r ≤ 0 ∨ (d ≠ 0 ∧ d ≤ r) → effectiveLimit d r = d) ∧
    (∀ (h : QueryHandler) (input : QueryInput) (rs : ResultSet),
      (goTrimSpace input.sql).isEmpty = false →
      isSingleStatement (goTrimSpace input.sql) = true →
      (h.readOnly = false ∨ isReadOnlyStatement (goTrimSpace input.sql) = true) →
      input.maxRows < 0 →
      call h input rs = .error .invalidLimit) ∧
    effectiveLimit 200 50 = 50 ∧ effectiveLimit 0 10 = 10 ∧
    effectiveLimit 200 500 = 200 := by
  refine ⟨?_, ?_, ?_, ?_, ?_, by decide, by decide, by decide⟩
  · intro m hm; simp [newServerMaxRows, defaultMaxRows, hm]
  · intro m hm; simp [newServerMaxRows, defaultMaxRows]; omega
  · intro d r h1 h2; simp only [effectiveLimit]; rw [if_pos ⟨h1, h2⟩]
  · intro d r h
    simp only [effectiveLimit]
    rw [if_neg]
    rintro ⟨h1, h2 | h2⟩ <;> omega
  · intro h input rs hne hsingle hro hneg
    simp only [call, hne, hsingle, if_neg, Bool.false_eq_true, if_false,
      Bool.not_true, Bool.and_false]
    rcases hro with hro | hro
    · simp [hro, if_pos hneg]
    · simp [hro, if_pos hneg]

/-- C3 witness: with configured default 200 a request override of 50
is the effective limit, and a negative override is rejected with
InvalidLimit on a concrete read-write handler and statement. -/
theorem effectiveLimit_spec_witness :
    effectiveLimit 200 50 = 50 ∧
    call ⟨false, 200⟩ ⟨str "SELECT 1", [], -1⟩ ⟨[], [], 0, []⟩ =
      .error .invalidLimit :=
  ⟨effectiveLimit_spec.2.2.1 200 50 (by decide) (Or.inr (by decide)),
   effectiveLimit_spec.2.2.2.2.1 ⟨false, 200⟩ ⟨str "SELECT 1", [], -1⟩
     ⟨[], [], 0, []⟩ (by decide) (by decide) (Or.inl rfl) (by decide)⟩

/-- C9: every handler built by NewServer has a default row limit of at
least 1 (a configured value of at most 0 is replaced by 200), so for
every request that passes the negative-override check the effective
limit is strictly positive and the unbounded configuration (effective
limit 0) is unreachable through the public constructor. -/
theorem newServer_limit_spec :
    (∀ m : Int, m ≤ 0 → newServerMaxRows m = 200) ∧
    (∀ m : Int, 1 ≤ newServerMaxRows m) ∧
    (∀ m r : Int, 0 ≤ r → 0 < effectiveLimit (newServerMaxRows m) r) ∧
    (∀ m r : Int, 0 ≤ r → effectiveLimit (newServerMaxRows m) r ≠ 0) := by
  have hpos : ∀ m : Int, 1 ≤ newServerMaxRows m := by
    intro m; simp only [newServerMaxRows, defaultMaxRows]; split <;> omega
  have heff : ∀ m r : Int, 0 ≤ r → 0 < effectiveLimit (newServerMaxRows m) r := by
    intro m r hr
    have := hpos m
    simp only [effectiveLimit]
    split
    · omega
    · omega
  refine ⟨fun m hm => ?_, hpos, heff, fun m r hr => by have := heff m r hr; omega⟩
  simp [newServerMaxRows, defaultMaxRows, hm]

/-- C9 witness: with a configured value of 0 and no request override
the effective limit is strictly positive. -/
theorem newServer_limit_spec_witness :
    0 < effectiveLimit (newServerMaxRows 0) 0 :=
  newServer_limit_spec.2.2.1 0 0 (by decide)

/-- C7: the inbound argument normalizer is total on the value model
and narrows a float with no fractional part (denominator 1) to the
integer of the same magnitude, keeps a float with a fractional part,
recurses elementwise through maps (preserving keys and order) and
slices (preserving order), and passes every other shape through
unchanged; concretely 3.0 becomes the integer 3 and 3.5 stays the
float 3.5. -/
theorem normalizeArgument_spec :
    (∀ q : ℚ, normalizeArgument (.float q) =
      if q.den = 1 then .int q.num else .float q) ∧
    (∀ q : ℚ, q.den = 1 → ((q.num : ℚ)) = q) ∧
    (∀ entries, normalizeArgument (.map entries) =
      .map (entries.map (fun p => (p.1, normalizeArgument p.2)))) ∧
    (∀ elems, normalizeArgument (.arr elems) =
      .arr (elems.map normalizeArgument)) ∧
    (∀ n, normalizeArgument (.int n) = .int n) ∧
    (∀ s, normalizeArgument (.str s) = .str s) ∧
    (∀ b, normalizeArgument (.bool b) = .bool b) ∧
    (normalizeArgument .null = .null) ∧
    (∀ b, normalizeArgument (.bytes b) = .bytes b) ∧
    (∀ t, normalizeArgument (.time t) = .time t) ∧
    (∀ v r, normalizeArgument (.numeric v r) = .numeric v r) ∧
    (∀ p, normalizeArgument (.numericPtr p) = .numericPtr p) ∧
    (∀ s, normalizeArgument (.stringer s) = .stringer s) ∧
    (normalizeArgument .other = .other) ∧
    normalizeArgument (.float 3) = .int 3 ∧
    normalizeArgument (.float (7 / 2)) = .float (7 / 2) := by
  refine ⟨normalizeArgument_float, fun q => Rat.coe_int_num_of_den_eq_one,
    fun entries => ?_, fun elems => ?_,
    fun n => rfl, fun s => rfl, fun b => rfl, rfl, fun b => rfl, fun t => rfl,
    fun v r => rfl, fun p => rfl, fun s => rfl, rfl, by rfl, ?_⟩
  · rw [normalizeArgument, normArgEntries_eq]
  · rw [normalizeArgument, normArgElems_eq]
  · rw [normalizeArgument_float]
    norm_num

/-- C7 witness: a rational with denominator 1 equals the cast of its
numerator (the integer narrowing preserves the value), at 3. -/
theorem normalizeArgument_spec_witness : (((3 : ℚ).num : ℚ)) = (3 : ℚ) :=
  normalizeArgument_spec.2.1 3 (by norm_num)

/-- C8: the outbound value normalizer is total on the value model and
decodes byte sequences to text, renders a timestamp in UTC RFC3339Nano
text (the instant 2024-01-01T00:00:00Z renders as exactly that text),
renders a valid arbitrary-precision numeric as its decimal text and an
invalid or nil one as null, renders any Stringer via its textual
rendering, and passes every other shape through unchanged. -/
theorem normalizeValue_spec :
    (∀ b, normalizeValue (.bytes b) = .str b) ∧
    (∀ t : GoTime, normalizeValue (.time t) = .str (formatRFC3339Nano t)) ∧
    normalizeValue (.time ⟨1704067200, 0⟩) = .str (str "2024-01-01T00:00:00Z") ∧
    (∀ r, normalizeValue (.numeric true r) = .str r) ∧
    (∀ r, normalizeValue (.numeric false r) = .null) ∧
    (normalizeValue (.numericPtr none) = .null) ∧
    (∀ r, normalizeValue (.numericPtr (some (true, r))) = .str r) ∧
    (∀ r, normalizeValue (.numericPtr (some (false, r))) = .null) ∧
    (∀ s, normalizeValue (.stringer s) = .str s) ∧
    (normalizeValue .null = .null) ∧
    (∀ b, normalizeValue (.bool b) = .bool b) ∧
    (∀ n, normalizeValue (.int n) = .int n) ∧
    (∀ q, normalizeValue (.float q) = .float q) ∧
    (∀ s, normalizeValue (.str s) = .str s) ∧
    (∀ entries, normalizeValue (.map entries) = .map entries) ∧
    (∀ elems, normalizeValue (.arr elems) = .arr elems) ∧
    (normalizeValue .other = .other) :=
  ⟨fun b => rfl, fun t => rfl, by rfl, fun r => rfl, fun r => rfl, rfl,
   fun r => rfl, fun r => rfl, fun s => rfl, rfl, fun b => rfl, fun n => rfl,
   fun q => rfl, fun s => rfl, fun entries => rfl, fun elems => rfl, rfl⟩

lemma rowLoop_count (L : Int) (cols : List (List Char)) :
    ∀ (rows : List (List GoValue)) (c : Int),
      (rowLoop L cols rows c).2.1 = c + (rowLoop L cols rows c).1.length := by
  intro rows
  induction rows with
  | nil => intro c; simp [rowLoop]
  | cons r rest ih =>
    intro c
    rw [rowLoop]
    split
    · simp
    · have := ih (c + 1)
      rcases hrec : rowLoop L cols rest (c + 1) with ⟨recs, cnt, t⟩
      rw [hrec] at this
      simp only [hrec]
      simp at this
      simp [this]
      omega

lemma rowLoop_len_trunc (L : Int) (cols : List (List Char)) (hL : 0 < L) :
    ∀ (rows : List (List GoValue)) (c : Int), 0 ≤ c →
      (rowLoop L cols rows c).1.length = min rows.length (L - c).toNat ∧
      ((rowLoop L cols rows c).2.2 = true ↔ (L - c).toNat < rows.length) := by
  intro rows
  induction rows with
  | nil => intro c _; simp [rowLoop]
  | cons r rest ih =>
    intro c hc
    rw [rowLoop]
    split
    · rename_i hbreak
      have h0 : (L - c).toNat = 0 := by omega
      simp [h0]
    · rename_i hnobreak
      have hcL : c < L := by
        rcases lt_or_le c L with h | h
        · exact h
        · exact absurd ⟨hL, h⟩ hnobreak
      have := ih (c + 1) (by omega)
      rcases hrec : rowLoop L cols rest (c + 1) with ⟨recs, cnt, t⟩
      rw [hrec] at this
      simp only [hrec]
      simp only [List.length_cons]
      simp at this
      constructor
      · rw [this.1]; omega
      · rw [this.2]; omega

/-- C4: for every execution with effective limit L greater than 0, a
result set of exactly L + 1 underlying rows yields exactly L returned
records with truncated true, a result set of at most L rows is
returned in full with truncated false, and truncated is true exactly
when more rows existed than records were returned. -/
theorem truncation_spec (L : Int) (cols : List (List Char))
    (rows : List (List GoValue)) (hL : 0 < L) :
    (((rows.length : Int) = L + 1) →
      ((rowLoop L cols rows 0).1.length : Int) = L ∧
      (rowLoop L cols rows 0).2.2 = true) ∧
    (((rows.length : Int) ≤ L) →
      (rowLoop L cols rows 0).1.length = rows.length ∧
      (rowLoop L cols rows 0).2.2 = false) ∧
    ((rowLoop L cols rows 0).2.2 = true ↔
      (rowLoop L cols rows 0).1.length < rows.length) := by
  have h := rowLoop_len_trunc L cols hL rows 0 le_rfl
  rcases h with ⟨hlen, htr⟩
  refine ⟨fun hn => ⟨?_, ?_⟩, fun hn => ⟨?_, ?_⟩, ?_⟩
  · rw [hlen]; omega
  · rw [htr]; omega
  · rw [hlen]; omega
  · rcases hb : (rowLoop L cols rows 0).2.2 with _ | _
    · rfl
    · exfalso
      have hcond := htr.mp hb
      omega
  · rw [htr, hlen]; omega

/-- C4 witness: with limit 1 and two underlying rows, exactly one
record is returned and truncated is true. -/
theorem truncation_spec_witness :
    ((rowLoop 1 [] [[], []] 0).1.length : Int) = 1 ∧
    (rowLoop 1 [] [[], []] 0).2.2 = true :=
  (truncation_spec 1 [] [[], []] (by decide)).1 (by decide)

/-- C6: on every successful call, rowCount equals the number of
records actually emitted into the row sequence, except that when zero
records were emitted and the result set has zero columns, rowCount is
the engine-reported affected-row count and columns and rows are both
empty. -/
theorem rowCount_spec (h : QueryHandler) (input : QueryInput) (rs : ResultSet)
    (o : QueryOutput) (hcall : call h input rs = .ok o) :
    (o.rows.length = 0 ∧ rs.columns = [] →
      o.rowCount = rs.rowsAffected ∧ o.columns = [] ∧ o.rows = []) ∧
    (rs.columns ≠ [] ∨ o.rows.length ≠ 0 →
      o.rowCount = (o.rows.length : Int)) := by
  have hcnt := rowLoop_count (effectiveLimit h.maxRows input.maxRows) rs.columns rs.rows 0
  simp only [call] at hcall
  split at hcall
  · exact absurd hcall (by simp)
  · split at hcall
    · exact absurd hcall (by simp)
    · split at hcall
      · exact absurd hcall (by simp)
      · split at hcall
        · exact absurd hcall (by simp)
        · simp only [Except.ok.injEq] at hcall
          subst hcall
          simp only []
          constructor
          · rintro ⟨hlen, hcols⟩
            have hz : (rowLoop (effectiveLimit h.maxRows input.maxRows)
                rs.columns rs.rows 0).2.1 = 0 := by
              rw [hcnt, hlen]; simp
            rw [if_pos ⟨hz, hcols⟩]
            exact ⟨rfl, hcols, List.length_eq_zero.mp hlen⟩
          · intro hne
            rw [if_neg, hcnt]
            · simp
            · rintro ⟨hz, hcols⟩
              rcases hne with hne | hne
              · exact hne hcols
              · apply hne
                rw [hcnt] at hz
                omega

/-- C6 witness: a one-column, one-row result set reports rowCount 1,
matching the single returned record, and an empty result set with no
columns reports the affected-row count 7 with empty columns and rows. -/
theorem rowCount_spec_witness :
    ((⟨str "SELECT 1", 1, [str "x"], [[(str "x", GoValue.int 1)]], false⟩ :
        QueryOutput).rowCount =
      ((⟨str "SELECT 1", 1, [str "x"], [[(str "x", GoValue.int 1)]], false⟩ :
        QueryOutput).rows.length : Int)) ∧
    ((⟨str "UPDATE 7", 7, [], [], false⟩ : QueryOutput).rowCount =
      (⟨[], [], 7, str "UPDATE 7"⟩ : ResultSet).rowsAffected ∧
     (⟨str "UPDATE 7", 7, [], [], false⟩ : QueryOutput).columns = [] ∧
     (⟨str "UPDATE 7", 7, [], [], false⟩ : QueryOutput).rows = []) :=
  ⟨(rowCount_spec ⟨false, 200⟩ ⟨str "SELECT 1", [], 0⟩
      ⟨[str "x"], [[.int 1]], 0, str "SELECT 1"⟩
      ⟨str "SELECT 1", 1, [str "x"], [[(str "x", GoValue.int 1)]], false⟩
      (by rfl)).2 (Or.inl (by simp)),
   (rowCount_spec ⟨false, 200⟩ ⟨str "UPDATE t SET a = 1", [], 0⟩
      ⟨[], [], 7, str "UPDATE 7"⟩
      ⟨str "UPDATE 7", 7, [], [], false⟩
      (by rfl)).1 ⟨rfl, rfl⟩⟩

lemma lastWrite_init (k : List Char) :
    ∀ (l : List (List Char × GoValue)) (a : Option GoValue),
      l.foldl (fun acc p => if p.1 = k then some p.2 else acc) a =
        match lastWrite l k with
        | some v => some v
        | none => a := by
  intro l
  induction l with
  | nil => intro a; simp [lastWrite]
  | cons p rest ih =>
    intro a
    simp only [List.foldl_cons, lastWrite] at *
    rw [ih, ih (if p.1 = k then some p.2 else none)]
    cases hF : List.foldl (fun acc p => if p.1 = k then some p.2 else acc) none rest with
    | none => by_cases hp : p.1 = k <;> simp [hp, hF]
    | some v => simp [hF]

lemma lastWrite_cons (k : List Char) (p : List Char × GoValue)
    (l : List (List Char × GoValue)) :
    lastWrite (p :: l) k =
      match lastWrite l k with
      | some v => some v
      | none => if p.1 = k then some p.2 else none := by
  simp only [lastWrite, List.foldl_cons]
  exact lastWrite_init k l _

lemma recordLookup_cons (p : List Char × GoValue) (m : GoRecord) (k : List Char) :
    recordLookup (p :: m) k = if p.1 = k then some p.2 else recordLookup m k := by
  simp only [recordLookup, List.find?]
  by_cases hp : p.1 = k
  · simp [hp]
  · simp [hp]

lemma lookup_overwrite (k k' : List Char) (v : GoValue) :
    ∀ m : GoRecord,
      recordLookup (m.map (fun p => if p.1 = k then (k, v) else p)) k' =
        if k' = k then (if m.any (fun p => decide (p.1 = k)) then some v else none)
        else recordLookup m k' := by
  intro m
  induction m with
  | nil => by_cases hk : k' = k <;> simp [recordLookup, hk]
  | cons p rest ih =>
    simp only [List.map_cons, List.any_cons]
    rw [recordLookup_cons, recordLookup_cons]
    by_cases hp : p.1 = k
    · by_cases hk : k' = k
      · simp [hp, hk, ih]
      · have hkk : ¬ k = k' := fun h => hk h.symm
        simp [hp, hk, hkk, ih]
    · by_cases hk : k' = k
      · subst hk
        have hd : decide (p.1 = k') = false := decide_eq_false hp
        simp only [hd, Bool.false_or]
        simp [hp, ih]
      · by_cases hpk : p.1 = k'
        · simp only [if_neg hk, if_neg hp]
          simp [hpk, hk]
        · simp [hp, hpk, ih, hk]

lemma mapUpsert_lookup (k k' : List Char) (v : GoValue) (m : GoRecord) :
    recordLookup (mapUpsert m k v) k' =
      if k' = k then some v else recordLookup m k' := by
  unfold mapUpsert
  rcases hany : m.any (fun p => decide (p.1 = k)) with _ | _
  · rw [if_neg (by simp [hany])]
    by_cases hk : k' = k
    · subst hk
      have hnone : m.find? (fun p => decide (p.1 = k')) = none := by
        rw [List.find?_eq_none]
        intro p hp
        simp only [List.any_eq_false] at hany
        have := hany p hp
        simpa using this
      simp [recordLookup, List.find?_append, hnone, List.find?]
    · simp only [recordLookup, List.find?_append]
      rcases hf : m.find? (fun p => decide (p.1 = k')) with _ | p
      · have hkk : ¬ k = k' := fun h => hk h.symm
        simp [hf, List.find?, hkk, hk]
      · simp [hf, hk]
  · rw [if_pos (by simp [hany])]
    rw [lookup_overwrite]
    by_cases hk : k' = k
    · simp [hk, hany]
    · simp [hk]

lemma foldl_upsert_lookup (k : List Char) :
    ∀ (ps : List (List Char × GoValue)) (m : GoRecord),
      recordLookup (ps.foldl (fun rec p => mapUpsert rec p.1 p.2) m) k =
        match lastWrite ps k with
        | some v => some v
        | none => recordLookup m k := by
  intro ps
  induction ps with
  | nil => intro m; simp [lastWrite]
  | cons p rest ih =>
    intro m
    simp only [List.foldl_cons]
    rw [ih, lastWrite_cons]
    rcases hl : lastWrite rest k with _ | v
    · simp only []
      rw [mapUpsert_lookup]
      by_cases hp : p.1 = k
      · simp [hp, eq_comm]
      · have : ¬ k = p.1 := fun h => hp h.symm
        simp [hp, this]
    · simp

lemma lastWrite_enumFrom_none (vals : List GoValue) (k : List Char) :
    ∀ (post : List (List Char)) (n : Nat), k ∉ post →
      lastWrite ((post.enumFrom n).map (fun q => (q.2, cellValue vals q.1))) k = none := by
  intro post
  induction post with
  | nil => intro n _; rfl
  | cons c post' ih =>
    intro n hk
    have hc : ¬ c = k := by
      intro h
      subst h
      exact hk (List.mem_cons_self c post')
    simp only [List.enumFrom, List.map_cons]
    rw [lastWrite_cons, ih (n + 1) (fun h => hk (List.mem_cons_of_mem c h))]
    simp [hc]

lemma lastWrite_enumFrom_split (vals : List GoValue) (k : List Char) :
    ∀ (pre post : List (List Char)) (n : Nat), k ∉ post →
      lastWrite (((pre ++ k :: post).enumFrom n).map
          (fun q => (q.2, cellValue vals q.1))) k =
        some (cellValue vals (n + pre.length)) := by
  intro pre
  induction pre with
  | nil =>
    intro post n hk
    simp only [List.nil_append, List.enumFrom, List.map_cons]
    rw [lastWrite_cons, lastWrite_enumFrom_none vals k post (n + 1) hk]
    simp
  | cons c pre' ih =>
    intro post n hk
    simp only [List.cons_append, List.enumFrom, List.map_cons]
    rw [lastWrite_cons]
    have hrec := ih post (n + 1) hk
    have harith : n + 1 + pre'.length = n + (c :: pre').length := by
      simp only [List.length_cons]
      omega
    simp only [List.append_eq] at hrec ⊢
    rw [hrec, harith]

lemma mapUpsert_keys (m : GoRecord) (k : List Char) (v : GoValue) :
    (mapUpsert m k v).map (fun p => p.1) =
      if m.any (fun p => decide (p.1 = k)) then m.map (fun p => p.1)
      else m.map (fun p => p.1) ++ [k] := by
  unfold mapUpsert
  by_cases h : m.any (fun p => decide (p.1 = k)) = true
  · rw [if_pos h, if_pos h, List.map_map]
    apply List.map_congr_left
    intro p _
    by_cases hp : p.1 = k
    · simp [hp]
    · simp [hp]
  · rw [if_neg h, if_neg h, List.map_append]
    simp

lemma mapUpsert_keys_nodup (m : GoRecord) (k : List Char) (v : GoValue)
    (h : (m.map (fun p => p.1)).Nodup) :
    ((mapUpsert m k v).map (fun p => p.1)).Nodup := by
  rw [mapUpsert_keys]
  by_cases hany : m.any (fun p => decide (p.1 = k)) = true
  · simpa [hany] using h
  · rw [if_neg hany]
    have hk : k ∉ m.map (fun p => p.1) := by
      intro hmem
      rcases List.mem_map.mp hmem with ⟨p, hp, hpk⟩
      rw [Bool.not_eq_true, List.any_eq_false] at hany
      exact absurd (by simpa using hpk) (hany p hp)
    simp [List.nodup_append, h, hk]

lemma buildRecord_keys_nodup (cols : List (List Char)) (vals : List GoValue) :
    ((buildRecord cols vals).map (fun p => p.1)).Nodup := by
  have hgen : ∀ (ps : List (Nat × List Char)) (m : GoRecord),
      (m.map (fun p => p.1)).Nodup →
      ((ps.foldl (fun rec p => mapUpsert rec p.2 (cellValue vals p.1)) m).map
        (fun p => p.1)).Nodup := by
    intro ps
    induction ps with
    | nil => intro m h; exact h
    | cons p rest ih =>
      intro m h
      exact ih _ (mapUpsert_keys_nodup _ _ _ h)
  exact hgen cols.enum [] (by simp)

lemma mapUpsert_length (m : GoRecord) (k : List Char) (v : GoValue) :
    (mapUpsert m k v).length ≤ m.length + 1 := by
  unfold mapUpsert
  split <;> simp

lemma buildRecord_length_le (cols : List (List Char)) (vals : List GoValue) :
    (buildRecord cols vals).length ≤ cols.length := by
  have hgen : ∀ (ps : List (Nat × List Char)) (m : GoRecord),
      (ps.foldl (fun rec p => mapUpsert rec p.2 (cellValue vals p.1)) m).length ≤
        m.length + ps.length := by
    intro ps
    induction ps with
    | nil => intro m; simp
    | cons p rest ih =>
      intro m
      have h1 := ih (mapUpsert m p.2 (cellValue vals p.1))
      have h2 := mapUpsert_length m p.2 (cellValue vals p.1)
      simp only [List.foldl_cons, List.length_cons]
      omega
  have h := hgen cols.enum []
  simpa [List.enum_length] using h

lemma buildRecord_lookup_last (cols : List (List Char)) (vals : List GoValue)
    (pre post : List (List Char)) (k : List Char)
    (hcols : cols = pre ++ k :: post) (hk : k ∉ post) :
    recordLookup (buildRecord cols vals) k = some (cellValue vals pre.length) := by
  subst hcols
  unfold buildRecord
  have hbridge : ∀ (ps : List (Nat × List Char)) (m : GoRecord),
      ps.foldl (fun rec p => mapUpsert rec p.2 (cellValue vals p.1)) m =
        (ps.map (fun q => (q.2, cellValue vals q.1))).foldl
          (fun rec p => mapUpsert rec p.1 p.2) m := by
    intro ps
    induction ps with
    | nil => intro m; rfl
    | cons q rest ih =>
      intro m
      simp only [List.foldl_cons, List.map_cons]
      exact ih _
  rw [hbridge, foldl_upsert_lookup]
  rw [show (pre ++ k :: post).enum = (pre ++ k :: post).enumFrom 0 from rfl]
  rw [lastWrite_enumFrom_split vals k pre post 0 hk]
  simp

/-- C10: each returned record is built by iterating the column names
in order into a string-keyed map, so a name occurring several times
keeps exactly one entry holding the cell of its last occurrence, the
record's keys are duplicate-free and the record can be shorter than
the columns sequence, and a column index with no corresponding cell
value is recorded as null. -/
theorem record_build_spec :
    (∀ (cols : List (List Char)) (vals : List GoValue)
        (pre post : List (List Char)) (k : List Char),
      cols = pre ++ k :: post → k ∉ post →
      recordLookup (buildRecord cols vals) k = some (cellValue vals pre.length)) ∧
    (∀ cols vals, ((buildRecord cols vals).map (fun p => p.1)).Nodup) ∧
    (∀ cols vals, (buildRecord cols vals).length ≤ cols.length) ∧
    (∀ vals i, vals.length ≤ i → cellValue vals i = .null) ∧
    buildRecord [str "a", str "a"] [GoValue.int 1, GoValue.int 2] =
      [(str "a", GoValue.int 2)] ∧
    recordLookup (buildRecord [str "a", str "b"] [GoValue.int 5]) (str "b") =
      some GoValue.null := by
  refine ⟨buildRecord_lookup_last, buildRecord_keys_nodup, buildRecord_length_le,
    ?_, by rfl, by rfl⟩
  intro vals i h
  simp [cellValue, List.getElem?_eq_none h]

/-- C10 witness: with duplicated column name a over cells 1 and 2, the
record maps a to the cell of the last occurrence (index 1). -/
theorem record_build_spec_witness :
    recordLookup (buildRecord [str "a", str "a"] [GoValue.int 1, GoValue.int 2])
      (str "a") = some (cellValue [GoValue.int 1, GoValue.int 2] 1) :=
  record_build_spec.1 [str "a", str "a"] [GoValue.int 1, GoValue.int 2]
    [str "a"] [] (str "a") rfl (by simp)

lemma lastIdxOf_eq_none_iff (c : Char) :
    ∀ t : List Char, lastIdxOf c t = none ↔ c ∉ t := by
  intro t
  induction t with
  | nil => simp [lastIdxOf]
  | cons x rest ih =>
    rw [lastIdxOf]
    rcases h : lastIdxOf c rest with _ | j
    · by_cases hx : x = c
      · simp [hx]
      · simp only [if_neg hx]
        rw [ih] at h
        simp [h, List.mem_cons]
        exact fun hc => hx hc.symm
    · have : c ∈ rest := by
        by_contra hc
        rw [← ih] at hc
        rw [h] at hc
        exact Option.noConfusion hc
      simp [List.mem_cons, this]

lemma lastIdxOf_spec (c : Char) :
    ∀ (t : List Char) (j : Nat), lastIdxOf c t = some j →
      j < t.length ∧ t.get? j = some c ∧ ∀ i, j < i → t.get? i ≠ some c := by
  intro t
  induction t with
  | nil => intro j h; exact Option.noConfusion h
  | cons x rest ih =>
    intro j h
    rw [lastIdxOf] at h
    rcases hr : lastIdxOf c rest with _ | j'
    · rw [hr] at h
      by_cases hx : x = c
      · rw [if_pos hx] at h
        have hj : j = 0 := by
          have := Option.some.inj h
          omega
        subst hj
        have hnot : c ∉ rest := (lastIdxOf_eq_none_iff c rest).mp hr
        refine ⟨by simp, by simp [hx], ?_⟩
        intro i hi hcon
        rcases i with _ | i'
        · omega
        · simp only [List.get?_cons_succ] at hcon
          exact hnot (List.get?_mem hcon)
      · rw [if_neg hx] at h
        exact Option.noConfusion h
    · rw [hr] at h
      have hj : j = j' + 1 := (Option.some.inj h).symm
      subst hj
      obtain ⟨h1, h2, h3⟩ := ih j' hr
      refine ⟨by simpa using h1, by simpa using h2, ?_⟩
      intro i hi
      rcases i with _ | i'
      · omega
      · simp only [List.get?_cons_succ]
        exact h3 i' (by omega)

lemma lastIdxOf_last_iff (c : Char) (t : List Char) (j : Nat)
    (h : lastIdxOf c t = some j) :
    j = t.length - 1 ↔ t.getLast? = some c := by
  obtain ⟨h1, h2, h3⟩ := lastIdxOf_spec c t j h
  constructor
  · intro hj
    subst hj
    rw [List.getLast?_eq_get?]
    exact h2
  · intro hlast
    by_contra hne
    have hjlt : j < t.length - 1 := by omega
    have := h3 (t.length - 1) (by omega)
    rw [List.getLast?_eq_get?] at hlast
    exact this hlast

/-- C2: the single-statement check accepts exactly the texts whose
trimmed form is non-empty and either contains no semicolon, or
contains exactly one semicolon sitting at the last position with
non-empty trimmed content before it; in particular a lone semicolon
fails, more than one semicolon fails, and a single semicolon not at
the end fails. -/
theorem isSingleStatement_spec :
    (∀ sql : List Char,
      isSingleStatement sql = true ↔
        (goTrimSpace sql ≠ [] ∧
          ((goTrimSpace sql).count ';' = 0 ∨
           ((goTrimSpace sql).count ';' = 1 ∧
            (goTrimSpace sql).getLast? = some ';' ∧
            goTrimSpace ((goTrimSpace sql).dropLast) ≠ [])))) ∧
    isSingleStatement (str ";") = false ∧
    isSingleStatement (str "SELECT 1;") = true ∧
    firstKeyword (str "SELECT 1;") = str "SELECT" ∧
    (∀ sql, 1 < (goTrimSpace sql).count ';' → isSingleStatement sql = false) ∧
    (∀ sql, (goTrimSpace sql).count ';' = 1 →
      (goTrimSpace sql).getLast? ≠ some ';' → isSingleStatement sql = false) := by
  have main : ∀ sql : List Char,
      isSingleStatement sql = true ↔
        (goTrimSpace sql ≠ [] ∧
          ((goTrimSpace sql).count ';' = 0 ∨
           ((goTrimSpace sql).count ';' = 1 ∧
            (goTrimSpace sql).getLast? = some ';' ∧
            goTrimSpace ((goTrimSpace sql).dropLast) ≠ []))) := by
    intro sql
    set t := goTrimSpace sql with ht
    by_cases h0 : t = []
    · simp [isSingleStatement, ← ht, h0]
    · have hne : t.isEmpty = false := by simp [h0]
      by_cases hc0 : t.count ';' = 0
      · simp [isSingleStatement, ← ht, hne, hc0, h0]
      · by_cases hc1 : t.count ';' = 1
        · have hmem : ';' ∈ t := by
            rw [← List.count_pos_iff]
            omega
          obtain ⟨idx, hidx⟩ : ∃ j, lastIdxOf ';' t = some j := by
            rcases hl : lastIdxOf ';' t with _ | j
            · exact absurd ((lastIdxOf_eq_none_iff ';' t).mp hl) (by simp [hmem])
            · exact ⟨j, rfl⟩
          by_cases hend : idx = t.length - 1
          · have hlast : t.getLast? = some ';' :=
              (lastIdxOf_last_iff ';' t idx hidx).mp hend
            have htake : t.take idx = t.dropLast := by
              rw [List.dropLast_eq_take, hend]
            simp only [isSingleStatement, ← ht, hne, Bool.false_eq_true, if_false,
              hc0, hc1, if_neg (by omega : ¬ 1 < t.count ';'), hidx,
              if_pos hend, htake]
            simp [h0, hc1, hlast, hc0]
          · have hlast : t.getLast? ≠ some ';' := by
              intro hc
              exact hend ((lastIdxOf_last_iff ';' t idx hidx).mpr hc)
            simp only [isSingleStatement, ← ht, hne, Bool.false_eq_true, if_false,
              hc0, hc1, if_neg (by omega : ¬ 1 < t.count ';'), hidx,
              if_neg hend]
            simp [h0, hc0, hc1, hlast]
        · have hgt : 1 < t.count ';' := by omega
          simp [isSingleStatement, ← ht, hne, hc0, hgt, h0, hc1]
  refine ⟨main, by decide, by decide, by decide, ?_, ?_⟩
  · intro sql hgt
    rcases hb : isSingleStatement sql with _ | _
    · rfl
    · exfalso
      rcases (main sql).mp hb with ⟨hne, h | h⟩
      · omega
      · omega
  · intro sql hc1 hlast
    rcases hb : isSingleStatement sql with _ | _
    · rfl
    · exfalso
      rcases (main sql).mp hb with ⟨hne, h | h⟩
      · omega
      · exact hlast h.2.1

/-- C2 witness: a text with two semicolons fails the single-statement
check, via the more-than-one-semicolon conjunct. -/
theorem isSingleStatement_spec_witness :
    isSingleStatement (str "a;b;") = false :=
  isSingleStatement_spec.2.2.2.2.1 (str "a;b;") (by decide)

lemma isPrefixOf_length : ∀ (a b : List Char), a.isPrefixOf b = true → a.length ≤ b.length := by
  intro a
  induction a with
  | nil => intro b _; simp
  | cons c a' ih =>
    intro b h
    rcases b with _ | ⟨d, b'⟩
    · exact absurd h (by simp [List.isPrefixOf])
    · simp only [List.isPrefixOf, Bool.and_eq_true] at h
      have := ih b' h.2
      simp only [List.length_cons]
      omega

lemma dropWhile_length_le (p : Char → Bool) :
    ∀ l : List Char, (l.dropWhile p).length ≤ l.length := by
  intro l
  induction l with
  | nil => simp
  | cons x rest ih =>
    rw [List.dropWhile_cons]
    split
    · simp only [List.length_cons]
      omega
    · simp

lemma goTrimSpace_length_le (l : List Char) : (goTrimSpace l).length ≤ l.length := by
  unfold goTrimSpace
  have h1 := dropWhile_length_le goIsSpace l
  have h2 := dropWhile_length_le goIsSpace (l.dropWhile goIsSpace).reverse
  simp only [List.length_reverse] at *
  omega

lemma word_not_space (c : Char) (h : isWordChar c = true) : goIsSpace c = false := by
  have hall : goWhitespace.all (fun c => !isWordChar c) = true := by decide
  rcases hsp : goIsSpace c with _ | _
  · rfl
  · exfalso
    have hmem : c ∈ goWhitespace := of_decide_eq_true hsp
    have := (List.all_eq_true.mp hall) c hmem
    rw [h] at this
    exact Bool.noConfusion this

lemma dropWhile_head_not (p : Char → Bool) :
    ∀ (l : List Char) (c : Char), (l.dropWhile p).head? = some c → p c = false := by
  intro l
  induction l with
  | nil => intro c h; exact Option.noConfusion h
  | cons x rest ih =>
    intro c h
    rcases hx : p x with _ | _
    · rw [List.dropWhile_cons, hx] at h
      simp only [Bool.false_eq_true, if_false, List.head?_cons] at h
      exact Option.some.inj h ▸ hx
    · rw [List.dropWhile_cons, hx] at h
      simp only [if_true] at h
      exact ih c h

lemma dropWhile_eq_self_of_head (p : Char → Bool) (l : List Char)
    (h : ∀ c, l.head? = some c → p c = false) : l.dropWhile p = l := by
  rcases l with _ | ⟨x, rest⟩
  · rfl
  · rw [List.dropWhile_cons, h x rfl]
    simp

lemma goTrimSpace_no_leading_space (l : List Char) :
    (goTrimSpace l).dropWhile goIsSpace = goTrimSpace l := by
  apply dropWhile_eq_self_of_head
  intro c hc
  set a := l.dropWhile goIsSpace with ha
  have hsfx : (a.reverse.dropWhile goIsSpace) <:+ a.reverse := List.dropWhile_suffix _
  have hpre : (a.reverse.dropWhile goIsSpace).reverse <+: a := by
    rw [show a = a.reverse.reverse from (List.reverse_reverse a).symm]
    exact List.reverse_prefix.mpr (by simpa using hsfx)
  rcases hpre with ⟨tail, htail⟩
  have hg : goTrimSpace l = (a.reverse.dropWhile goIsSpace).reverse := by
    unfold goTrimSpace
    rw [← ha]
  rw [hg] at hc
  rcases hrev : (a.reverse.dropWhile goIsSpace).reverse with _ | ⟨x, g'⟩
  · rw [hrev] at hc
    exact Option.noConfusion hc
  · rw [hrev] at hc htail
    have hx : x = c := Option.some.inj (by simpa using hc)
    subst hx
    have hahead : a.head? = some x := by
      rw [← htail]
      rfl
    exact dropWhile_head_not goIsSpace l x (ha ▸ hahead)

lemma buildKeyword_acc :
    ∀ (s acc : List Char), acc ≠ [] →
      buildKeyword acc s = acc.reverse ++ (s.takeWhile isWordChar).map goToUpper := by
  intro s
  induction s with
  | nil => intro acc _; simp [buildKeyword]
  | cons c rest ih =>
    intro acc hacc
    rw [buildKeyword]
    rcases hc : isWordChar c with _ | _
    · simp only [Bool.false_eq_true, if_false]
      rw [if_neg (by simp [hacc])]
      simp [List.takeWhile_cons, hc]
    · simp only [if_true]
      rw [ih (goToUpper c :: acc) (by simp)]
      simp [List.takeWhile_cons, hc]

lemma buildKeyword_nil :
    ∀ s : List Char,
      buildKeyword [] s =
        ((s.dropWhile goIsSpace).takeWhile isWordChar).map goToUpper := by
  intro s
  induction s with
  | nil => simp [buildKeyword]
  | cons c rest ih =>
    rw [buildKeyword]
    rcases hc : isWordChar c with _ | _
    · simp only [Bool.false_eq_true, if_false]
      rcases hsp : goIsSpace c with _ | _
      · rw [if_neg (by simp [hsp])]
        simp [List.dropWhile_cons, hsp, List.takeWhile_cons, hc, buildKeyword]
      · rw [if_pos (by simp [hsp])]
        rw [ih]
        simp [List.dropWhile_cons, hsp]
    · simp only [if_true]
      rw [buildKeyword_acc rest [goToUpper c] (by simp)]
      have hsp : goIsSpace c = false := word_not_space c hc
      simp [List.dropWhile_cons, hsp, List.takeWhile_cons, hc]

lemma dash_block_exclusive (s : List Char)
    (h : (str "/*").isPrefixOf s = true) : (str "--").isPrefixOf s = false := by
  rcases hb : (str "--").isPrefixOf s with _ | _
  · rfl
  · exfalso
    rcases s with _ | ⟨x, rest⟩
    · simp [str, List.isPrefixOf] at hb
    · simp [str, List.isPrefixOf] at hb h
      have hq : ('/' : Char) = '-' := h.1.trans hb.1.symm
      exact absurd hq (by decide)

lemma skipLoop_congr :
    ∀ (f₁ f₂ : Nat) (s : List Char), s.length < f₁ → s.length < f₂ →
      skipLoop f₁ s = skipLoop f₂ s := by
  intro f₁
  induction f₁ with
  | zero => intro f₂ s h1 _; omega
  | succ g ih =>
    intro f₂ s h1 h2
    rcases f₂ with _ | g₂
    · omega
    · simp only [skipLoop]
      by_cases hdash : (str "--").isPrefixOf s = true
      · rw [if_pos hdash, if_pos hdash]
        rcases hnl : s.findIdx? (fun c => c = '\n') with _ | i
        · rfl
        · have hlen2 : 2 ≤ s.length := by
            have := isPrefixOf_length (str "--") s hdash
            simpa [str] using this
          have hdrop : (s.drop (i + 1)).length = s.length - (i + 1) := by simp
          have htriml := goTrimSpace_length_le (s.drop (i + 1))
          apply ih
          · omega
          · omega
      · rw [if_neg hdash, if_neg hdash]
        by_cases hblock : (str "/*").isPrefixOf s = true
        · rw [if_pos hblock, if_pos hblock]
          rcases hix : indexOfSub (str "*/") s with _ | i
          · rfl
          · have hlen2 : 2 ≤ s.length := by
              have := isPrefixOf_length (str "/*") s hblock
              simpa [str] using this
            have hdrop : (s.drop (i + 2)).length = s.length - (i + 2) := by simp
            have htriml := goTrimSpace_length_le (s.drop (i + 2))
            apply ih
            · omega
            · omega
        · rw [if_neg hblock, if_neg hblock]

/-- C5: firstKeyword skips leading whitespace and any leading line or
block comments of the trimmed text, returns the uppercased run of
leading letters and underscores of what remains, and returns the
empty string when a leading comment is unterminated (a line comment
with no following newline, a block comment with no closing marker) or
when no leading identifier token is found. -/
theorem firstKeyword_spec :
    (∀ sql : List Char,
      (str "--").isPrefixOf (goTrimSpace sql) = true →
      (goTrimSpace sql).findIdx? (fun c => c = '\n') = none →
      firstKeyword sql = []) ∧
    (∀ (sql : List Char) (i : Nat),
      (str "--").isPrefixOf (goTrimSpace sql) = true →
      (goTrimSpace sql).findIdx? (fun c => c = '\n') = some i →
      firstKeyword sql = firstKeyword ((goTrimSpace sql).drop (i + 1))) ∧
    (∀ sql : List Char,
      (str "/*").isPrefixOf (goTrimSpace sql) = true →
      indexOfSub (str "*/") (goTrimSpace sql) = none →
      firstKeyword sql = []) ∧
    (∀ (sql : List Char) (i : Nat),
      (str "/*").isPrefixOf (goTrimSpace sql) = true →
      indexOfSub (str "*/") (goTrimSpace sql) = some i →
      firstKeyword sql = firstKeyword ((goTrimSpace sql).drop (i + 2))) ∧
    (∀ sql : List Char,
      (str "--").isPrefixOf (goTrimSpace sql) = false →
      (str "/*").isPrefixOf (goTrimSpace sql) = false →
      firstKeyword sql =
        ((goTrimSpace sql).takeWhile isWordChar).map goToUpper) ∧
    firstKeyword (str "  select * from t") = str "SELECT" ∧
    firstKeyword (str "-- c\n SELECT 1") = str "SELECT" ∧
    firstKeyword (str "/* c */ insert into t") = str "INSERT" ∧
    firstKeyword (str "/* unterminated") = [] ∧
    firstKeyword (str "-- no newline") = [] ∧
    firstKeyword (str "123 select") = [] := by
  refine ⟨?_, ?_, ?_, ?_, ?_, by decide, by decide, by decide, by decide,
    by decide, by decide⟩
  · intro sql h1 h2
    unfold firstKeyword
    simp only [skipLoop]
    rw [if_pos h1, h2]
  · intro sql i h1 h2
    unfold firstKeyword
    conv =>
      lhs
      simp only [skipLoop]
      rw [if_pos h1, h2]
    have hlen2 : 2 ≤ (goTrimSpace sql).length := by
      have := isPrefixOf_length (str "--") (goTrimSpace sql) h1
      simpa [str] using this
    have hdrop : ((goTrimSpace sql).drop (i + 1)).length =
        (goTrimSpace sql).length - (i + 1) := by simp
    have htriml := goTrimSpace_length_le ((goTrimSpace sql).drop (i + 1))
    apply skipLoop_congr
    · omega
    · omega
  · intro sql h1 h2
    unfold firstKeyword
    simp only [skipLoop]
    have hd : (str "--").isPrefixOf (goTrimSpace sql) = false :=
      dash_block_exclusive (goTrimSpace sql) h1
    rw [if_neg (by simp [hd]), if_pos h1, h2]
  · intro sql i h1 h2
    unfold firstKeyword
    have hd : (str "--").isPrefixOf (goTrimSpace sql) = false :=
      dash_block_exclusive (goTrimSpace sql) h1
    conv =>
      lhs
      simp only [skipLoop]
      rw [if_neg (by simp [hd]), if_pos h1, h2]
    have hlen2 : 2 ≤ (goTrimSpace sql).length := by
      have := isPrefixOf_length (str "/*") (goTrimSpace sql) h1
      simpa [str] using this
    have hdrop : ((goTrimSpace sql).drop (i + 2)).length =
        (goTrimSpace sql).length - (i + 2) := by simp
    have htriml := goTrimSpace_length_le ((goTrimSpace sql).drop (i + 2))
    apply skipLoop_congr
    · omega
    · omega
  · intro sql h1 h2
    unfold firstKeyword
    simp only [skipLoop]
    rw [if_neg (by simp [h1]), if_neg (by simp [h2])]
    rcases ht : goTrimSpace sql with _ | ⟨x, rest⟩
    · simp
    · rw [if_neg (by simp)]
      rw [← ht, buildKeyword_nil, goTrimSpace_no_leading_space]

/-- C5 witness: an unterminated line comment (no newline) classifies
to the empty keyword. -/
theorem firstKeyword_spec_witness : firstKeyword (str "--abc") = [] :=
  firstKeyword_spec.1 (str "--abc") (by decide) (by decide)

/-- C1: with read-only mode enabled, the guardrail permits a statement
exactly when the classified leading keyword (uppercased) is one of
SELECT, WITH, SHOW, EXPLAIN, VALUES, TABLE; an empty or unrecognized
keyword is rejected with MutatingStatementRejected; concretely
DELETE FROM t is denied and "  select * from t" (mixed case, leading
whitespace) is permitted. -/
theorem readonly_guard_spec :
    (∀ sql : List Char,
      isReadOnlyStatement sql = true ↔ firstKeyword sql ∈ allowedReadOnly) ∧
    (∀ sql : List Char, firstKeyword sql = [] →
      isReadOnlyStatement sql = false) ∧
    (∀ (h : QueryHandler) (input : QueryInput) (rs : ResultSet),
      h.readOnly = true →
      (goTrimSpace input.sql).isEmpty = false →
      isSingleStatement (goTrimSpace input.sql) = true →
      (call h input rs = .error .mutatingRejected ↔
        isReadOnlyStatement (goTrimSpace input.sql) = false)) ∧
    call ⟨true, 200⟩ ⟨str "DELETE FROM t", [], 0⟩ ⟨[], [], 0, []⟩ =
      .error .mutatingRejected ∧
    call ⟨true, 200⟩ ⟨str "  select * from t", [], 0⟩ ⟨[], [], 0, []⟩ =
      .ok ⟨[], 0, [], [], false⟩ := by
  refine ⟨?_, ?_, ?_, by rfl, by rfl⟩
  · intro sql
    simp only [isReadOnlyStatement]
    by_cases hkw : firstKeyword sql = []
    · rw [hkw]
      decide
    · rw [if_neg (by simp [hkw])]
      simp
  · intro sql h
    simp only [isReadOnlyStatement]
    rw [h]
    simp
  · intro h input rs hro hne hsingle
    rcases hrs : isReadOnlyStatement (goTrimSpace input.sql) with _ | _
    · simp [call, hne, hsingle, hro, hrs]
    · simp only [call, hne, hsingle, hro, hrs, Bool.false_eq_true, if_false,
        Bool.not_true, Bool.and_false]
      constructor
      · intro hc
        split at hc <;> simp_all
      · intro hc
        exact Bool.noConfusion hc

/-- C1 witness: a text with no leading identifier token classifies to
the empty keyword and is rejected by the read-only policy. -/
theorem readonly_guard_spec_witness :
    isReadOnlyStatement (str "123") = false :=
  readonly_guard_spec.2.1 (str "123") (by decide)
